import Mathlib

/-!
Shallow embedding of src/CVR.py, a single-vehicle capacitated routing
heuristic: delivery selection (greedy knapsack), route construction
(nearest neighbor plus cheapest pickup insertion), 2-opt local search,
capacity-feasibility simulation, and the outer solver loop.

Python floats are modelled as real numbers; float comparisons become
classical real comparisons.  A Python exception (the TypeError raised by
route.insert(None, pickup) when no insertion position was found) is
modelled as Except.error.
-/

open scoped Classical

/-- Mirrors class Event: a located stop with a capacity, a variant tag
("delivery", "pickup" or "depot") and a display name. -/
structure Event where
  x : ℝ
  y : ℝ
  capacity : ℝ
  type : String
  name : String

noncomputable instance : DecidableEq Event := Classical.decEq Event

/-- Mirrors the module-level constant DEPOT = Event(0.0, 0.0, 0.0, "depot", "Depot"). -/
def DEPOT : Event := ⟨0, 0, 0, "depot", "Depot"⟩

/-- Mirrors distance(a, b): Euclidean distance between two stops. -/
noncomputable def distance (a b : Event) : ℝ :=
  Real.sqrt ((a.x - b.x) ^ 2 + (a.y - b.y) ^ 2)

/-- Mirrors route_length(route): sum of consecutive distances, 0 for
routes shorter than two stops. -/
noncomputable def route_length : List Event → ℝ
  | [] => 0
  | [_] => 0
  | a :: b :: rest => distance a b + route_length (b :: rest)

/-- The sort key relation used by select_deliveries:
sorted(deliveries, key=lambda d: (d.capacity, distance(DEPOT, d))) sorts
ascending by the lexicographic pair (capacity, distance from depot). -/
noncomputable def selLe (a b : Event) : Prop :=
  a.capacity < b.capacity ∨
    (a.capacity = b.capacity ∧ distance DEPOT a ≤ distance DEPOT b)

/-- The greedy acceptance loop of select_deliveries: walk the sorted list
keeping a running total, accepting a stop whenever total + capacity stays
within the limit (rejected stops are skipped, later stops are still tried). -/
noncomputable def greedy_go : List Event → ℝ → ℝ → List Event
  | [], _, _ => []
  | d :: rest, total, limit =>
    if total + d.capacity ≤ limit then d :: greedy_go rest (total + d.capacity) limit
    else greedy_go rest total limit

/-- Mirrors select_deliveries(deliveries, capacity_limit): stable sort by
(capacity, distance-from-depot), then greedy acceptance under the limit.
List.insertionSort with the total reflexive relation selLe is a stable
ascending sort, as Python sorted is. -/
noncomputable def select_deliveries (deliveries : List Event) (capacity_limit : ℝ) :
    List Event :=
  greedy_go (List.insertionSort selLe deliveries) 0 capacity_limit

/-- Mirrors min(unvisited, key=lambda d: distance(current, d)) on the
nonempty list a :: l: returns the first element of minimal distance
together with its index (replacement only on strict decrease, so the
earliest minimum wins, as for Python min). -/
noncomputable def nnPick (current : Event) (a : Event) : List Event → Event × ℕ
  | [] => (a, 0)
  | b :: rest =>
    let p := nnPick current b rest
    if distance current p.1 < distance current a then (p.1, p.2 + 1) else (a, 0)

/-- The while loop of nearest_neighbor_route: pick the nearest unvisited
stop, append it, advance, remove it from the pool.  The fuel argument is
the initial pool size; each iteration removes exactly one element, so the
fuel never runs out on the actual calls. -/
noncomputable def nn_go : ℕ → Event → List Event → List Event
  | 0, _, _ => []
  | fuel + 1, current, unvisited =>
    match unvisited with
    | [] => []
    | u :: us =>
      let p := nnPick current u us
      p.1 :: nn_go fuel p.1 ((u :: us).eraseIdx p.2)

/-- Mirrors nearest_neighbor_route(deliveries): depot followed by the
deliveries in nearest-neighbor order. -/
noncomputable def nearest_neighbor_route (deliveries : List Event) : List Event :=
  DEPOT :: nn_go deliveries.length DEPOT deliveries

/-- The marginal distance increase of inserting the pickup between
route[i-1] and route[i]:
distance(route[i-1], pickup) + distance(pickup, route[i]) - distance(route[i-1], route[i]). -/
noncomputable def insertIncrease (route : List Event) (pickup : Event) (i : ℕ) : ℝ :=
  distance (route.getD (i - 1) DEPOT) pickup + distance pickup (route.getD i DEPOT) -
    distance (route.getD (i - 1) DEPOT) (route.getD i DEPOT)

/-- One step of the best-position scan: keep the first strict minimum of
the increase.  Python initialises best_increase to float("inf") and
best_position to None, so the first candidate is always taken; this is
modelled by the none case. -/
noncomputable def insertScanStep (f : ℕ → ℝ) (acc : Option (ℕ × ℝ)) (i : ℕ) :
    Option (ℕ × ℝ) :=
  match acc with
  | none => some (i, f i)
  | some bi => if f i < bi.2 then some (i, f i) else acc

/-- The scan of insert_pickup_best_position: for i in range(1, len(route)),
track the position of minimal marginal increase. -/
noncomputable def bestInsertPos (route : List Event) (pickup : Event) : Option ℕ :=
  ((List.range' 1 (route.length - 1)).foldl
    (insertScanStep (insertIncrease route pickup)) none).map (·.1)

/-- Mirrors insert_pickup_best_position(route, pickup).  When the scan
finds no position (route of length at most 1, so range(1, len(route)) is
empty), Python executes route.insert(None, pickup) and raises TypeError;
that failure is the none result. -/
noncomputable def insert_pickup_best_position (route : List Event) (pickup : Event) :
    Option (List Event) :=
  match bestInsertPos route pickup with
  | none => none
  | some i => some (route.insertIdx i pickup)

/-- new_route[i:j] = reversed(best_route[i:j]): reverse the segment of
indices i..j-1, keeping the rest. -/
def reverseSegment (r : List Event) (i j : ℕ) : List Event :=
  r.take i ++ ((r.drop i).take (j - i)).reverse ++ r.drop j

/-- The index pairs scanned by one pass of two_opt:
for i in range(1, n - 2): for j in range(i + 1, n - 1). -/
def twoOptPairs (n : ℕ) : List (ℕ × ℕ) :=
  (List.range' 1 (n - 3)).flatMap (fun i => (List.range' (i + 1) (n - 2 - i)).map (fun j => (i, j)))

/-- The body of the nested for loops of two_opt: skip adjacent pairs
(j - i == 1); otherwise reverse the segment of the current best route and
adopt it immediately if strictly shorter, recording the improved flag. -/
noncomputable def passStep (acc : List Event × Bool) (ij : ℕ × ℕ) : List Event × Bool :=
  if ij.2 - ij.1 = 1 then acc
  else
    let nr := reverseSegment acc.1 ij.1 ij.2
    if route_length nr < route_length acc.1 then (nr, true) else acc

/-- One full pass of the two_opt scan, exactly as the nested for loops of
the source: a strictly shorter reversal immediately becomes the current
best and the scan continues with the next pair of the same pass. -/
noncomputable def two_opt_pass (r : List Event) : List Event × Bool :=
  (twoOptPairs r.length).foldl passStep (r, false)

/-- The while improved loop of two_opt.  The fuel bounds the number of
passes; two_opt passes strictly decrease the route length while the route
stays a permutation of the input, so length! + 1 passes always suffice
(theorem two_opt_pass_of_two_opt below), and the model agrees with the
unbounded Python loop. -/
noncomputable def two_opt_go : ℕ → List Event → List Event
  | 0, r => r
  | fuel + 1, r =>
    let p := two_opt_pass r
    if p.2 = true then two_opt_go fuel p.1 else r

/-- Mirrors two_opt(route). -/
noncomputable def two_opt (route : List Event) : List Event :=
  two_opt_go (route.length.factorial + 1) route

/-- Mirrors build_route(deliveries, pickup): nearest-neighbor tour, then
pickup insertion (which can fail, see insert_pickup_best_position), then
append the closing depot, then 2-opt. -/
noncomputable def build_route (deliveries : List Event) (pickup : Event) :
    Option (List Event) :=
  match insert_pickup_best_position (nearest_neighbor_route deliveries) pickup with
  | none => none
  | some r => some (two_opt (r ++ [DEPOT]))

/-- Mirrors sum(e.capacity for e in route if e.type == "delivery"). -/
noncomputable def routeDeliveryLoad (route : List Event) : ℝ :=
  ((route.filter (fun e => e.type = "delivery")).map Event.capacity).sum

/-- The walk of is_capacity_feasible: update the load at each stop
(delivery unloads, pickup loads, depot unchanged) and fail as soon as the
load exceeds the vehicle capacity. -/
noncomputable def feasible_go : List Event → ℝ → ℝ → Bool
  | [], _, _ => true
  | e :: rest, load, cap =>
    let load' :=
      if e.type = "delivery" then load - e.capacity
      else if e.type = "pickup" then load + e.capacity
      else load
    if cap < load' then false else feasible_go rest load' cap

/-- Mirrors is_capacity_feasible(route, vehicle_capacity): start already
loaded with every delivery weight in the route; fail if that initial load
exceeds capacity, otherwise simulate the walk. -/
noncomputable def is_capacity_feasible (route : List Event) (vehicle_capacity : ℝ) :
    Bool :=
  let init := routeDeliveryLoad route
  if vehicle_capacity < init then false else feasible_go route init vehicle_capacity

/-- Mirrors the solution dict assembled by solve. -/
structure Solution where
  route : List Event
  num_deliveries : ℕ
  route_length : ℝ
  pickup_used : Event

/-- Python tuple comparison score > best_score on (num_deliveries, -length):
strictly greater in the lexicographic order. -/
def scoreGT (s t : ℕ × ℝ) : Prop :=
  t.1 < s.1 ∨ (t.1 = s.1 ∧ t.2 < s.2)

/-- The body of the solve loop for one pickup, acting on the current best
(solution, score) accumulator.  Python initialises best_score to
(-1, float("inf")) and best_solution to None; since every candidate score
has first component len(selected) >= 0 > -1, the sentinel is beaten by
every candidate, which the none case models.  capacity_for_deliveries is
vehicle_capacity itself (the subtraction of pickup.capacity is commented
out in the source).  This function is only the no-exception path; the
error path lives in solve_go. -/
noncomputable def solveStep (deliveries : List Event) (vehicle_capacity : ℝ)
    (best : Option (Solution × (ℕ × ℝ))) (pickup : Event) :
    Option (Solution × (ℕ × ℝ)) :=
  match build_route (select_deliveries deliveries vehicle_capacity) pickup with
  | none => best
  | some route =>
    if is_capacity_feasible route vehicle_capacity = true then
      let n := (select_deliveries deliveries vehicle_capacity).length
      let len := route_length route
      let better :=
        match best with
        | none => True
        | some b => scoreGT (n, -len) b.2
      if better then some (⟨route, n, len, pickup⟩, (n, -len)) else best
    else best

/-- The for pickup in pickups loop of solve.  A pickup whose delivery
budget (= vehicle_capacity, see solveStep) is negative is skipped; if
build_route fails, the Python TypeError propagates out of solve, modelled
as Except.error. -/
noncomputable def solve_go (deliveries : List Event) (vehicle_capacity : ℝ) :
    List Event → Option (Solution × (ℕ × ℝ)) → Except Unit (Option Solution)
  | [], best => .ok (best.map (·.1))
  | pickup :: rest, best =>
    if vehicle_capacity < 0 then solve_go deliveries vehicle_capacity rest best
    else
      match build_route (select_deliveries deliveries vehicle_capacity) pickup with
      | none => .error ()
      | some route =>
        if is_capacity_feasible route vehicle_capacity = true then
          let n := (select_deliveries deliveries vehicle_capacity).length
          let len := route_length route
          let better :=
            match best with
            | none => True
            | some b => scoreGT (n, -len) b.2
          if better then
            solve_go deliveries vehicle_capacity rest (some (⟨route, n, len, pickup⟩, (n, -len)))
          else solve_go deliveries vehicle_capacity rest best
        else solve_go deliveries vehicle_capacity rest best

/-- Mirrors solve(deliveries, pickups, vehicle_capacity): ok none is the
Python None result (no feasible pickup), error is an uncaught exception. -/
noncomputable def solve (deliveries pickups : List Event) (vehicle_capacity : ℝ) :
    Except Unit (Option Solution) :=
  solve_go deliveries vehicle_capacity pickups none

/-- Modelled from the spec (section 4.4): the first-improvement scan -
walk the index pairs (i, j) in order, skip adjacent ones, and return the
first reversal that strictly decreases total length, none if a complete
scan finds no improvement. -/
noncomputable def firstImprovement (r : List Event) : Option (List Event) :=
  (twoOptPairs r.length).foldl
    (fun acc ij =>
      match acc with
      | some _ => acc
      | none =>
        if ij.2 - ij.1 = 1 then none
        else
          let nr := reverseSegment r ij.1 ij.2
          if route_length nr < route_length r then some nr else none)
    none

/-- Fuel-bounded iteration of firstImprovement, analogous to two_opt_go. -/
noncomputable def two_opt_restart_go : ℕ → List Event → List Event
  | 0, r => r
  | fuel + 1, r =>
    match firstImprovement r with
    | none => r
    | some r2 => two_opt_restart_go fuel r2

/-- Modelled from the spec (section 4.4): restart-from-top 2-opt - when a
reversal strictly improves the route it becomes the new current best and
the scan restarts from the first pair; the loop stops when a complete
scan finds no improving reversal. -/
noncomputable def two_opt_restart (route : List Event) : List Event :=
  two_opt_restart_go (route.length.factorial + 1) route

/-- Modelled from the spec (section 4.2): sort deliveries ascending by
the pair (capacity, distance-from-depot), then greedily accept each stop
in order while the running capacity sum stays within the limit, with no
early termination after a rejection. -/
noncomputable def select_spec (deliveries : List Event) (capacity_limit : ℝ) :
    List Event :=
  greedy_go (List.insertionSort selLe deliveries) 0 capacity_limit

/-- The load change contributed by one stop in the walk of
is_capacity_feasible: a delivery unloads its capacity, a pickup loads its
capacity, a depot changes nothing. -/
noncomputable def loadDelta (e : Event) : ℝ :=
  if e.type = "delivery" then -e.capacity
  else if e.type = "pickup" then e.capacity
  else 0

/-- The simulated vehicle load after the first k stops of the route:
initial load (all delivery weights in the route) plus the accumulated
load changes. -/
noncomputable def loadAfter (route : List Event) (k : ℕ) : ℝ :=
  routeDeliveryLoad route + ((route.take k).map loadDelta).sum

/-- The route solve builds for one pickup candidate (the delivery budget
equals the vehicle capacity, see solveStep). -/
noncomputable def candRoute (deliveries : List Event) (vehicle_capacity : ℝ)
    (pickup : Event) : Option (List Event) :=
  build_route (select_deliveries deliveries vehicle_capacity) pickup

/-- A pickup candidate passes validation: its route was built and passed
is_capacity_feasible. -/
noncomputable def candValid (deliveries : List Event) (vehicle_capacity : ℝ)
    (pickup : Event) : Prop :=
  ∃ r, candRoute deliveries vehicle_capacity pickup = some r ∧
    is_capacity_feasible r vehicle_capacity = true

/-- The score (num_deliveries, -route_length) solve computes for a pickup
candidate. -/
noncomputable def candScore (deliveries : List Event) (vehicle_capacity : ℝ)
    (pickup : Event) : ℕ × ℝ :=
  ((select_deliveries deliveries vehicle_capacity).length,
    -route_length ((candRoute deliveries vehicle_capacity pickup).getD []))

/-- The solution record solve assembles for a pickup candidate. -/
noncomputable def candSol (deliveries : List Event) (vehicle_capacity : ℝ)
    (pickup : Event) : Solution :=
  ⟨(candRoute deliveries vehicle_capacity pickup).getD [],
    (select_deliveries deliveries vehicle_capacity).length,
    route_length ((candRoute deliveries vehicle_capacity pickup).getD []),
    pickup⟩

/-- The number of permutations of r that are strictly shorter than r:
the termination measure of the two_opt while loop. -/
noncomputable def permCount (r : List Event) : ℕ :=
  (r.permutations.toFinset.filter (fun p => route_length p < route_length r)).card

/-- Concrete collinear stops witnessing that the scan discipline of the
implemented two_opt differs from restart-from-top 2-opt. -/
def cxA : Event := ⟨-3, 0, 0, "delivery", "A"⟩

def cxB : Event := ⟨1, 0, 0, "delivery", "B"⟩

def cxC : Event := ⟨-2, 0, 0, "delivery", "C"⟩

def cxD : Event := ⟨-3, 0, 0, "delivery", "D"⟩

def cxE : Event := ⟨1, 0, 0, "delivery", "E"⟩

/-- The closed input route of the two_opt scan-discipline counterexample. -/
def cxR0 : List Event := [DEPOT, cxA, cxB, cxC, cxD, cxE, DEPOT]

/-- What the implemented two_opt returns on cxR0. -/
def cxR1 : List Event := [DEPOT, cxD, cxA, cxC, cxB, cxE, DEPOT]

/-- Intermediate routes of the restart-from-top run on cxR0. -/
def cxS1 : List Event := [DEPOT, cxB, cxA, cxC, cxD, cxE, DEPOT]

def cxS2 : List Event := [DEPOT, cxD, cxC, cxA, cxB, cxE, DEPOT]

/-- What restart-from-top 2-opt returns on cxR0. -/
def cxS3 : List Event := [DEPOT, cxC, cxD, cxA, cxB, cxE, DEPOT]

/-! ### Helper lemmas: the two_opt pass -/

theorem passStep_cases (acc : List Event × Bool) (ij : ℕ × ℕ) :
    passStep acc ij = acc ∨
      (route_length (passStep acc ij).1 < route_length acc.1 ∧
        (passStep acc ij).2 = true ∧
        (passStep acc ij).1 = reverseSegment acc.1 ij.1 ij.2) := by
  unfold passStep
  by_cases h1 : ij.2 - ij.1 = 1
  · simp [h1]
  · by_cases h2 : route_length (reverseSegment acc.1 ij.1 ij.2) < route_length acc.1
    · simp [h1, h2]
    · simp [h1, h2]

theorem foldl_passStep_le (l : List (ℕ × ℕ)) :
    ∀ acc : List Event × Bool,
      route_length (l.foldl passStep acc).1 ≤ route_length acc.1 := by
  induction l with
  | nil => intro acc; simp
  | cons ij l ih =>
    intro acc
    rcases passStep_cases acc ij with h | h
    · simpa [h] using ih (passStep acc ij) |>.trans (le_of_eq (by rw [h]))
    · exact le_trans (by simpa using ih (passStep acc ij)) (le_of_lt h.1)

theorem foldl_passStep_flag (l : List (ℕ × ℕ)) :
    ∀ acc : List Event × Bool, (l.foldl passStep acc).2 = false →
      l.foldl passStep acc = acc := by
  induction l with
  | nil => intro acc _; rfl
  | cons ij l ih =>
    intro acc hf
    simp only [List.foldl_cons] at hf ⊢
    rcases passStep_cases acc ij with h | h
    · rw [h] at hf ⊢; exact ih acc hf
    · have := ih (passStep acc ij) hf
      rw [this] at hf
      rw [h.2.1] at hf
      cases hf

theorem foldl_passStep_lt (l : List (ℕ × ℕ)) :
    ∀ acc : List Event × Bool, ∀ L : ℝ,
      route_length acc.1 ≤ L → (acc.2 = true → route_length acc.1 < L) →
      (l.foldl passStep acc).2 = true → route_length (l.foldl passStep acc).1 < L := by
  induction l with
  | nil => intro acc L _ h2 hf; exact h2 hf
  | cons ij l ih =>
    intro acc L h1 h2 hf
    simp only [List.foldl_cons] at hf ⊢
    rcases passStep_cases acc ij with h | h
    · rw [h] at hf ⊢; exact ih acc L h1 h2 hf
    · exact ih (passStep acc ij) L (le_trans (le_of_lt h.1) h1)
        (fun _ => lt_of_lt_of_le h.1 h1) hf

theorem two_opt_pass_length_le (r : List Event) :
    route_length (two_opt_pass r).1 ≤ route_length r := by
  simpa using foldl_passStep_le (twoOptPairs r.length) (r, false)

theorem two_opt_pass_eq_of_flag_false {r : List Event}
    (h : (two_opt_pass r).2 = false) : (two_opt_pass r).1 = r := by
  have := foldl_passStep_flag (twoOptPairs r.length) (r, false) h
  rw [two_opt_pass, this]

theorem two_opt_pass_lt {r : List Event} (h : (two_opt_pass r).2 = true) :
    route_length (two_opt_pass r).1 < route_length r := by
  exact foldl_passStep_lt (twoOptPairs r.length) (r, false) (route_length r)
    le_rfl (by intro hc; cases hc) h

theorem reverseSegment_perm (r : List Event) (i j : ℕ) (hij : i ≤ j)
    (_hj : j ≤ r.length) : (reverseSegment r i j).Perm r := by
  have h2 : (r.drop i).drop (j - i) = r.drop j := by
    rw [List.drop_drop]
    congr 1
    omega
  have hsplit : r.take i ++ ((r.drop i).take (j - i) ++ r.drop j) = r := by
    rw [← h2, List.take_append_drop, List.take_append_drop]
  have hperm : (r.take i ++ (((r.drop i).take (j - i)).reverse ++ r.drop j)).Perm
      (r.take i ++ ((r.drop i).take (j - i) ++ r.drop j)) :=
    List.Perm.append_left _ (List.Perm.append_right _ (List.reverse_perm _))
  unfold reverseSegment
  rw [List.append_assoc]
  exact hperm.trans (by rw [hsplit])

theorem reverseSegment_head (r : List Event) (i j : ℕ) (hi : 1 ≤ i) :
    (reverseSegment r i j).head? = r.head? := by
  cases r with
  | nil => simp [reverseSegment]
  | cons a t =>
    obtain ⟨m, rfl⟩ : ∃ m, i = m + 1 := ⟨i - 1, by omega⟩
    simp [reverseSegment, List.take_succ_cons]

theorem getLast?_drop_eq (r : List Event) (j : ℕ) (hj : j < r.length) :
    (r.drop j).getLast? = r.getLast? := by
  induction r generalizing j with
  | nil => simp
  | cons a t ih =>
    cases j with
    | zero => simp
    | succ m =>
      have hm : m < t.length := by simpa using hj
      have := ih m hm
      cases t with
      | nil => simp at hm
      | cons b t2 => simpa [List.getLast?_cons_cons] using this

theorem getLast?_append_of_ne_nil (l1 l2 : List Event) (h : l2 ≠ []) :
    (l1 ++ l2).getLast? = l2.getLast? := by
  induction l1 with
  | nil => simp
  | cons a t ih =>
    cases ht : t ++ l2 with
    | nil =>
      rcases List.append_eq_nil.mp ht with ⟨_, h2⟩
      exact absurd h2 h
    | cons b u =>
      simp only [List.cons_append, ht, List.getLast?_cons_cons] at *
      exact ih

theorem reverseSegment_getLast (r : List Event) (i j : ℕ) (hj : j < r.length) :
    (reverseSegment r i j).getLast? = r.getLast? := by
  have hne : r.drop j ≠ [] := by
    intro h
    have := congrArg List.length h
    simp at this
    omega
  unfold reverseSegment
  rw [List.append_assoc, getLast?_append_of_ne_nil _ _ (by
      intro h
      rcases List.append_eq_nil.mp h with ⟨_, h2⟩
      exact hne h2),
    getLast?_append_of_ne_nil _ _ hne, getLast?_drop_eq r j hj]

theorem twoOptPairs_mem {n : ℕ} {ij : ℕ × ℕ} (h : ij ∈ twoOptPairs n) :
    1 ≤ ij.1 ∧ ij.1 < ij.2 ∧ ij.2 ≤ n - 2 := by
  unfold twoOptPairs at h
  simp only [List.mem_flatMap, List.mem_map, List.mem_range'_1] at h
  obtain ⟨i, ⟨hi1, hi2⟩, j, ⟨hj1, hj2⟩, rfl⟩ := h
  refine ⟨hi1, by omega, by omega⟩

theorem foldl_passStep_perm (r : List Event) (l : List (ℕ × ℕ))
    (hl : ∀ ij ∈ l, ij.1 ≤ ij.2 ∧ ij.2 ≤ r.length) :
    ∀ acc : List Event × Bool, acc.1.Perm r → ((l.foldl passStep acc).1).Perm r := by
  induction l with
  | nil => intro acc h; simpa using h
  | cons ij l ih =>
    intro acc hacc
    simp only [List.foldl_cons]
    refine ih (fun p hp => hl p (List.mem_cons_of_mem _ hp)) (passStep acc ij) ?_
    rcases passStep_cases acc ij with h | h
    · rw [h]; exact hacc
    · rw [h.2.2]
      have hij := hl ij (List.mem_cons_self _ _)
      have hlen : acc.1.length = r.length := hacc.length_eq
      exact (reverseSegment_perm acc.1 ij.1 ij.2 hij.1 (by omega)).trans hacc

theorem two_opt_pass_perm (r : List Event) : ((two_opt_pass r).1).Perm r := by
  refine foldl_passStep_perm r (twoOptPairs r.length) ?_ (r, false) (List.Perm.refl r)
  intro ij hij
  have := twoOptPairs_mem hij
  exact ⟨le_of_lt this.2.1, by omega⟩

theorem foldl_passStep_head (r : List Event) (l : List (ℕ × ℕ))
    (hl : ∀ ij ∈ l, 1 ≤ ij.1) :
    ∀ acc : List Event × Bool, acc.1.head? = r.head? →
      ((l.foldl passStep acc).1).head? = r.head? := by
  induction l with
  | nil => intro acc h; simpa using h
  | cons ij l ih =>
    intro acc hacc
    simp only [List.foldl_cons]
    refine ih (fun p hp => hl p (List.mem_cons_of_mem _ hp)) (passStep acc ij) ?_
    rcases passStep_cases acc ij with h | h
    · rw [h]; exact hacc
    · rw [h.2.2, reverseSegment_head _ _ _ (hl ij (List.mem_cons_self _ _))]
      exact hacc

theorem two_opt_pass_head (r : List Event) :
    ((two_opt_pass r).1).head? = r.head? := by
  refine foldl_passStep_head r (twoOptPairs r.length) ?_ (r, false) rfl
  intro ij hij
  exact (twoOptPairs_mem hij).1

theorem reverseSegment_length (r : List Event) (i j : ℕ) (hij : i ≤ j)
    (hj : j ≤ r.length) : (reverseSegment r i j).length = r.length := by
  unfold reverseSegment
  rw [List.length_append, List.length_append, List.length_reverse, List.length_take,
    List.length_take, List.length_drop, List.length_drop]
  rw [Nat.min_eq_left (by omega), Nat.min_eq_left (by omega)]
  omega

theorem foldl_passStep_getLast (r : List Event) (l : List (ℕ × ℕ))
    (hl : ∀ ij ∈ l, ij.1 ≤ ij.2 ∧ ij.2 < r.length) :
    ∀ acc : List Event × Bool, acc.1.getLast? = r.getLast? → acc.1.length = r.length →
      ((l.foldl passStep acc).1).getLast? = r.getLast? := by
  induction l with
  | nil => intro acc h _; simpa using h
  | cons ij l ih =>
    intro acc hacc hlen
    simp only [List.foldl_cons]
    have hij := hl ij (List.mem_cons_self _ _)
    have hstep : (passStep acc ij).1.length = r.length := by
      rcases passStep_cases acc ij with h | h
      · rw [h]; exact hlen
      · rw [h.2.2, reverseSegment_length _ _ _ hij.1 (by omega)]
        exact hlen
    refine ih (fun p hp => hl p (List.mem_cons_of_mem _ hp)) (passStep acc ij) ?_ hstep
    rcases passStep_cases acc ij with h | h
    · rw [h]; exact hacc
    · rw [h.2.2, reverseSegment_getLast _ _ _ (by omega)]
      exact hacc

theorem two_opt_pass_getLast (r : List Event) :
    ((two_opt_pass r).1).getLast? = r.getLast? := by
  by_cases hr : 4 ≤ r.length
  · refine foldl_passStep_getLast r (twoOptPairs r.length) ?_ (r, false) rfl rfl
    intro ij hij
    have h := twoOptPairs_mem hij
    exact ⟨le_of_lt h.2.1, by omega⟩
  · have hempty : twoOptPairs r.length = [] := by
      unfold twoOptPairs
      have h3 : r.length - 3 = 0 := by omega
      simp [h3]
    rw [two_opt_pass, hempty]
    rfl

/-! ### Helper lemmas: the two_opt loop -/

theorem two_opt_go_fix {r : List Event} (h : (two_opt_pass r).2 = false) :
    ∀ fuel, two_opt_go fuel r = r := by
  intro fuel
  cases fuel with
  | zero => rfl
  | succ f => simp [two_opt_go, h]

theorem two_opt_go_step {r r2 : List Event} (h : two_opt_pass r = (r2, true))
    (fuel : ℕ) : two_opt_go (fuel + 1) r = two_opt_go fuel r2 := by
  simp [two_opt_go, h]

theorem two_opt_restart_go_fix {r : List Event} (h : firstImprovement r = none) :
    ∀ fuel, two_opt_restart_go fuel r = r := by
  intro fuel
  cases fuel with
  | zero => rfl
  | succ f => simp [two_opt_restart_go, h]

theorem two_opt_restart_go_step {r r2 : List Event} (h : firstImprovement r = some r2)
    (fuel : ℕ) : two_opt_restart_go (fuel + 1) r = two_opt_restart_go fuel r2 := by
  simp [two_opt_restart_go, h]

theorem permutations_toFinset_congr {r2 r : List Event} (h : r2.Perm r) :
    r2.permutations.toFinset = r.permutations.toFinset := by
  ext p
  simp only [List.mem_toFinset, List.mem_permutations]
  exact ⟨fun hp => hp.trans h, fun hp => hp.trans h.symm⟩

theorem permCount_lt {r2 r : List Event} (hp : r2.Perm r)
    (hlt : route_length r2 < route_length r) : permCount r2 < permCount r := by
  unfold permCount
  rw [permutations_toFinset_congr hp]
  apply Finset.card_lt_card
  constructor
  · intro q hq
    simp only [Finset.mem_filter] at hq ⊢
    exact ⟨hq.1, hq.2.trans hlt⟩
  · intro hsub
    have hmem : r2 ∈ r.permutations.toFinset.filter
        (fun p => route_length p < route_length r) := by
      simp only [Finset.mem_filter, List.mem_toFinset, List.mem_permutations]
      exact ⟨hp, hlt⟩
    have := hsub hmem
    simp only [Finset.mem_filter] at this
    exact absurd this.2 (lt_irrefl _)

theorem permCount_le (r : List Event) : permCount r ≤ r.length.factorial := by
  calc permCount r ≤ r.permutations.toFinset.card := Finset.card_filter_le _ _
    _ ≤ r.permutations.length := List.toFinset_card_le _
    _ = r.length.factorial := List.length_permutations r

theorem two_opt_go_reaches_fix :
    ∀ fuel (r : List Event), permCount r < fuel →
      (two_opt_pass (two_opt_go fuel r)).2 = false := by
  intro fuel
  induction fuel with
  | zero => intro r h; exact absurd h (by omega)
  | succ f ih =>
    intro r h
    by_cases hflag : (two_opt_pass r).2 = true
    · have hpair : two_opt_pass r = ((two_opt_pass r).1, true) := by
        rw [← hflag]
      rw [two_opt_go_step hpair]
      refine ih _ ?_
      have hlt := permCount_lt (two_opt_pass_perm r) (two_opt_pass_lt hflag)
      omega
    · have hfalse : (two_opt_pass r).2 = false := by
        cases hb : (two_opt_pass r).2
        · rfl
        · exact absurd hb hflag
      rw [two_opt_go_fix hfalse]
      exact hfalse

theorem two_opt_go_fuel_irrel :
    ∀ f1 (r : List Event) (f2 : ℕ), permCount r < f1 → permCount r < f2 →
      two_opt_go f1 r = two_opt_go f2 r := by
  intro f1
  induction f1 with
  | zero => intro r f2 h _; exact absurd h (by omega)
  | succ g ih =>
    intro r f2 h1 h2
    by_cases hflag : (two_opt_pass r).2 = true
    · have hpair : two_opt_pass r = ((two_opt_pass r).1, true) := by rw [← hflag]
      obtain ⟨g2, rfl⟩ : ∃ g2, f2 = g2 + 1 := ⟨f2 - 1, by omega⟩
      rw [two_opt_go_step hpair, two_opt_go_step hpair]
      have hlt := permCount_lt (two_opt_pass_perm r) (two_opt_pass_lt hflag)
      exact ih _ _ (by omega) (by omega)
    · have hfalse : (two_opt_pass r).2 = false := by
        cases hb : (two_opt_pass r).2
        · rfl
        · exact absurd hb hflag
      rw [two_opt_go_fix hfalse, two_opt_go_fix hfalse]

/-- Adequacy of the fuel bound: the route two_opt returns admits no
further improving pass, exactly the termination condition of the Python
while loop. -/
theorem two_opt_pass_of_two_opt (r : List Event) :
    (two_opt_pass (two_opt r)).2 = false := by
  apply two_opt_go_reaches_fix
  have := permCount_le r
  omega

theorem two_opt_length_le (r : List Event) :
    route_length (two_opt r) ≤ route_length r := by
  rw [two_opt]
  generalize r.length.factorial + 1 = fuel
  induction fuel generalizing r with
  | zero => simp [two_opt_go]
  | succ f ih =>
    by_cases hflag : (two_opt_pass r).2 = true
    · have hpair : two_opt_pass r = ((two_opt_pass r).1, true) := by rw [← hflag]
      rw [two_opt_go_step hpair]
      exact le_trans (ih _) (two_opt_pass_length_le r)
    · have hfalse : (two_opt_pass r).2 = false := by
        cases hb : (two_opt_pass r).2
        · rfl
        · exact absurd hb hflag
      rw [two_opt_go_fix hfalse]

theorem two_opt_perm (r : List Event) : (two_opt r).Perm r := by
  rw [two_opt]
  generalize r.length.factorial + 1 = fuel
  induction fuel generalizing r with
  | zero => simp [two_opt_go]
  | succ f ih =>
    by_cases hflag : (two_opt_pass r).2 = true
    · have hpair : two_opt_pass r = ((two_opt_pass r).1, true) := by rw [← hflag]
      rw [two_opt_go_step hpair]
      exact (ih _).trans (two_opt_pass_perm r)
    · have hfalse : (two_opt_pass r).2 = false := by
        cases hb : (two_opt_pass r).2
        · rfl
        · exact absurd hb hflag
      rw [two_opt_go_fix hfalse]

theorem two_opt_head (r : List Event) : (two_opt r).head? = r.head? := by
  rw [two_opt]
  generalize r.length.factorial + 1 = fuel
  induction fuel generalizing r with
  | zero => simp [two_opt_go]
  | succ f ih =>
    by_cases hflag : (two_opt_pass r).2 = true
    · have hpair : two_opt_pass r = ((two_opt_pass r).1, true) := by rw [← hflag]
      rw [two_opt_go_step hpair]
      exact (ih _).trans (two_opt_pass_head r)
    · have hfalse : (two_opt_pass r).2 = false := by
        cases hb : (two_opt_pass r).2
        · rfl
        · exact absurd hb hflag
      rw [two_opt_go_fix hfalse]

theorem two_opt_getLast (r : List Event) : (two_opt r).getLast? = r.getLast? := by
  rw [two_opt]
  generalize r.length.factorial + 1 = fuel
  induction fuel generalizing r with
  | zero => simp [two_opt_go]
  | succ f ih =>
    by_cases hflag : (two_opt_pass r).2 = true
    · have hpair : two_opt_pass r = ((two_opt_pass r).1, true) := by rw [← hflag]
      rw [two_opt_go_step hpair]
      exact (ih _).trans (two_opt_pass_getLast r)
    · have hfalse : (two_opt_pass r).2 = false := by
        cases hb : (two_opt_pass r).2
        · rfl
        · exact absurd hb hflag
      rw [two_opt_go_fix hfalse]

/-! ### Helper lemmas: concrete evaluation -/

theorem distance_line (a b c c2 : ℝ) (t t2 n n2 : String) :
    distance ⟨a, 0, c, t, n⟩ ⟨b, 0, c2, t2, n2⟩ = |a - b| := by
  simp [distance, Real.sqrt_sq_eq_abs]

theorem cx_pass0 : two_opt_pass cxR0 = (cxR1, true) := by
  norm_num [two_opt_pass, twoOptPairs, cxR0, cxR1, passStep, reverseSegment,
    route_length, distance_line, cxA, cxB, cxC, cxD, cxE, DEPOT,
    List.range', List.foldl]

theorem cx_pass1 : two_opt_pass cxR1 = (cxR1, false) := by
  norm_num [two_opt_pass, twoOptPairs, cxR1, passStep, reverseSegment,
    route_length, distance_line, cxA, cxB, cxC, cxD, cxE, DEPOT,
    List.range', List.foldl]

theorem cx_code : two_opt cxR0 = cxR1 := by
  have h7 : cxR0.length = 7 := by simp [cxR0]
  rw [two_opt, h7, two_opt_go_step cx_pass0]
  exact two_opt_go_fix (by rw [cx_pass1]) _

theorem cx_fi0 : firstImprovement cxR0 = some cxS1 := by
  norm_num [firstImprovement, twoOptPairs, cxR0, cxS1, reverseSegment,
    route_length, distance_line, cxA, cxB, cxC, cxD, cxE, DEPOT,
    List.range', List.foldl]

theorem cx_fi1 : firstImprovement cxS1 = some cxS2 := by
  norm_num [firstImprovement, twoOptPairs, cxS1, cxS2, reverseSegment,
    route_length, distance_line, cxA, cxB, cxC, cxD, cxE, DEPOT,
    List.range', List.foldl]

theorem cx_fi2 : firstImprovement cxS2 = some cxS3 := by
  norm_num [firstImprovement, twoOptPairs, cxS2, cxS3, reverseSegment,
    route_length, distance_line, cxA, cxB, cxC, cxD, cxE, DEPOT,
    List.range', List.foldl]

theorem cx_fi3 : firstImprovement cxS3 = none := by
  norm_num [firstImprovement, twoOptPairs, cxS3, reverseSegment,
    route_length, distance_line, cxA, cxB, cxC, cxD, cxE, DEPOT,
    List.range', List.foldl]

theorem cx_restart : two_opt_restart cxR0 = cxS3 := by
  have h7 : cxR0.length = 7 := by simp [cxR0]
  rw [two_opt_restart, h7, two_opt_restart_go_step cx_fi0]
  rw [show Nat.factorial 7 = 5039 + 1 by norm_num [Nat.factorial]]
  rw [two_opt_restart_go_step cx_fi1]
  rw [show (5039 : ℕ) = 5038 + 1 by norm_num]
  rw [two_opt_restart_go_step cx_fi2]
  exact two_opt_restart_go_fix cx_fi3 _

/-! ### Claims C3 and C4 -/

/-- Claim C3, counterexample: on the closed route cxR0 the implemented
two_opt and the restart-from-top 2-opt described by the spec return
different routes, so they are not equal as functions on routes. -/
theorem C3_counterexample : two_opt cxR0 ≠ two_opt_restart cxR0 := by
  rw [cx_code, cx_restart]
  norm_num [cxR1, cxS3, cxC, cxD, Event.mk.injEq]

/-- Claim C3, amended: two_opt adopts a strictly improving reversal
immediately but continues the current pass from the next index pair
(two_opt_pass); the full scan is restarted only after a pass that found
at least one improvement, and the loop stops after a pass with none. -/
theorem C3_scan_discipline (r : List Event) :
    two_opt r = if (two_opt_pass r).2 = true then two_opt ((two_opt_pass r).1) else r := by
  by_cases hflag : (two_opt_pass r).2 = true
  · rw [if_pos hflag]
    have hpair : two_opt_pass r = ((two_opt_pass r).1, true) := by rw [← hflag]
    rw [two_opt, two_opt_go_step hpair, two_opt]
    have h1 := permCount_lt (two_opt_pass_perm r) (two_opt_pass_lt hflag)
    have h2 := permCount_le r
    have h3 := permCount_le (two_opt_pass r).1
    exact two_opt_go_fuel_irrel _ _ _ (by omega) (by omega)
  · rw [if_neg hflag, two_opt, two_opt_go_fix (Bool.eq_false_iff.mpr hflag)]

/-- Claim C4: 2-opt never increases total route length, and applying it a
second time changes nothing. -/
theorem C4_two_opt_length_le_and_idempotent (r : List Event) :
    route_length (two_opt r) ≤ route_length r ∧ two_opt (two_opt r) = two_opt r := by
  refine ⟨two_opt_length_le r, ?_⟩
  exact two_opt_go_fix (two_opt_pass_of_two_opt r) _

/-! ### Helper lemmas: the delivery selector -/

theorem greedy_go_sum_le :
    ∀ (l : List Event) (total limit : ℝ), total ≤ limit →
      total + ((greedy_go l total limit).map Event.capacity).sum ≤ limit := by
  intro l
  induction l with
  | nil => intro total limit h; simpa [greedy_go] using h
  | cons d rest ih =>
    intro total limit h
    by_cases hacc : total + d.capacity ≤ limit
    · have := ih (total + d.capacity) limit hacc
      simp only [greedy_go, if_pos hacc, List.map_cons, List.sum_cons]
      linarith
    · have := ih total limit h
      simpa only [greedy_go, if_neg hacc] using this

theorem greedy_go_pos_zero :
    ∀ l : List Event, (∀ d ∈ l, 0 < d.capacity) → greedy_go l 0 0 = [] := by
  intro l
  induction l with
  | nil => intro _; rfl
  | cons d rest ih =>
    intro h
    have hd : ¬ (0 + d.capacity ≤ (0 : ℝ)) := by
      have := h d (List.mem_cons_self _ _)
      simp only [zero_add]
      linarith
    simp only [greedy_go, if_neg hd]
    exact ih (fun e he => h e (List.mem_cons_of_mem _ he))

theorem selLe_total (a b : Event) : selLe a b ∨ selLe b a := by
  unfold selLe
  rcases lt_trichotomy a.capacity b.capacity with h | h | h
  · exact Or.inl (Or.inl h)
  · rcases le_total (distance DEPOT a) (distance DEPOT b) with hd | hd
    · exact Or.inl (Or.inr ⟨h, hd⟩)
    · exact Or.inr (Or.inr ⟨h.symm, hd⟩)
  · exact Or.inr (Or.inl h)

theorem selLe_trans (a b c : Event) (h1 : selLe a b) (h2 : selLe b c) : selLe a c := by
  unfold selLe at *
  rcases h1 with h1 | ⟨h1e, h1d⟩ <;> rcases h2 with h2 | ⟨h2e, h2d⟩
  · exact Or.inl (lt_trans h1 h2)
  · exact Or.inl (h2e ▸ h1)
  · exact Or.inl (h1e ▸ h2)
  · exact Or.inr ⟨h1e.trans h2e, h1d.trans h2d⟩

theorem insertionSort_selLe_sorted (ds : List Event) :
    List.Sorted selLe (List.insertionSort selLe ds) := by
  letI : IsTotal Event selLe := ⟨selLe_total⟩
  letI : IsTrans Event selLe := ⟨fun a b c => selLe_trans a b c⟩
  exact List.sorted_insertionSort selLe ds

/-- The selector really is the greedy walk of an ascending stable sort of
the input: the sorted pool is a permutation of the deliveries, sorted by
the lexicographic key (capacity, distance-from-depot). -/
theorem select_deliveries_sorted_perm (ds : List Event) (l : ℝ) :
    (List.insertionSort selLe ds).Perm ds ∧
      List.Sorted selLe (List.insertionSort selLe ds) ∧
      select_deliveries ds l = greedy_go (List.insertionSort selLe ds) 0 l :=
  ⟨List.perm_insertionSort _ _, insertionSort_selLe_sorted ds, rfl⟩

/-! ### Claims C9 and C10 -/

/-- Claim C9, counterexample: a delivery of capacity 0 is accepted under a
capacity limit of 0 (0 + 0 <= 0), so the zero-limit selection is not
always empty. -/
theorem C9_counterexample :
    select_deliveries [⟨1, 0, 0, "delivery", "D1"⟩] 0 ≠ [] := by
  norm_num [select_deliveries, greedy_go, List.insertionSort, List.orderedInsert]

/-- Claim C9, amended: the Delivery Selector returns an empty selection on
an empty input, and on a zero capacity limit whenever every delivery has
positive capacity (a zero-capacity delivery is accepted even under a zero
limit, since the running sum stays at 0 <= 0). -/
theorem C9_selector_empty (ds : List Event) (l : ℝ) :
    select_deliveries [] l = [] ∧
      ((∀ d ∈ ds, 0 < d.capacity) → select_deliveries ds 0 = []) := by
  constructor
  · rfl
  · intro h
    unfold select_deliveries
    apply greedy_go_pos_zero
    intro d hd
    exact h d ((List.perm_insertionSort selLe ds).mem_iff.mp hd)

/-- Witness for C9_selector_empty at a concrete positive-capacity
delivery and the zero limit. -/
theorem C9_witness :
    (∀ d ∈ [(⟨1, 0, 1, "delivery", "D1"⟩ : Event)], 0 < d.capacity) ∧
      select_deliveries [⟨1, 0, 1, "delivery", "D1"⟩] 0 = [] := by
  refine ⟨?_, (C9_selector_empty [⟨1, 0, 1, "delivery", "D1"⟩] 0).2 ?_⟩ <;>
    · intro d hd
      simp only [List.mem_singleton] at hd
      subst hd
      norm_num

/-- Claim C10, counterexample: with an empty delivery list and the
negative capacity limit -1 the selection is empty and its capacity sum 0
exceeds the limit, so the sum bound does not hold for every limit. -/
theorem C10_counterexample :
    ¬ (((select_deliveries [] (-1)).map Event.capacity).sum ≤ (-1 : ℝ)) := by
  norm_num [select_deliveries, greedy_go, List.insertionSort]

/-- Claim C10, amended: select_deliveries is exactly the spec description
(stable sort ascending by the pair (capacity, distance-from-depot), then
greedy acceptance with no early termination), and whenever the capacity
limit is non-negative - as every budget solve actually passes is - the
capacity sum of the selection stays within the limit. -/
theorem C10_select_spec_and_budget (ds : List Event) (l : ℝ) :
    select_deliveries ds l = select_spec ds l ∧
      (List.insertionSort selLe ds).Perm ds ∧
      List.Sorted selLe (List.insertionSort selLe ds) ∧
      select_deliveries ds l = greedy_go (List.insertionSort selLe ds) 0 l ∧
      (0 ≤ l → ((select_deliveries ds l).map Event.capacity).sum ≤ l) := by
  refine ⟨rfl, (select_deliveries_sorted_perm ds l).1,
    (select_deliveries_sorted_perm ds l).2.1, rfl, fun h0 => ?_⟩
  have := greedy_go_sum_le (List.insertionSort selLe ds) 0 l h0
  simpa [select_deliveries] using this

/-- Witness for C10_select_spec_and_budget at a concrete delivery list
and the non-negative limit 5. -/
theorem C10_witness :
    (0 : ℝ) ≤ 5 ∧
      ((select_deliveries [⟨1, 0, 2, "delivery", "D1"⟩] 5).map Event.capacity).sum ≤ 5 :=
  ⟨by norm_num,
    (C10_select_spec_and_budget [⟨1, 0, 2, "delivery", "D1"⟩] 5).2.2.2.2 (by norm_num)⟩

/-! ### Helper lemmas: the capacity validator -/

theorem loadDelta_step (e : Event) (load : ℝ) :
    (if e.type = "delivery" then load - e.capacity
      else if e.type = "pickup" then load + e.capacity
      else load) = load + loadDelta e := by
  unfold loadDelta
  by_cases h1 : e.type = "delivery"
  · simp [h1]; ring
  · by_cases h2 : e.type = "pickup"
    · simp [h1, h2]
    · simp [h1, h2]

theorem feasible_go_cons (e : Event) (rest : List Event) (load cap : ℝ) :
    feasible_go (e :: rest) load cap =
      if cap < load + loadDelta e then false
      else feasible_go rest (load + loadDelta e) cap := by
  simp only [feasible_go, loadDelta_step]

theorem feasible_go_iff :
    ∀ (l : List Event) (load cap : ℝ),
      feasible_go l load cap = true ↔
        ∀ k, 1 ≤ k → k ≤ l.length →
          load + ((l.take k).map loadDelta).sum ≤ cap := by
  intro l
  induction l with
  | nil =>
    intro load cap
    simp only [feasible_go, List.length_nil]
    constructor
    · intro _ k h1 h2; omega
    · intro _; trivial
  | cons e rest ih =>
    intro load cap
    simp only [feasible_go, loadDelta_step]
    by_cases hcap : cap < load + loadDelta e
    · rw [if_pos hcap]
      constructor
      · intro h; cases h
      · intro h
        have h1 := h 1 le_rfl (by simp)
        simp only [List.take_succ_cons, List.take_zero, List.map_cons, List.map_nil,
          List.sum_cons, List.sum_nil, add_zero] at h1
        exact absurd h1 (not_le.mpr hcap)
    · rw [if_neg hcap]
      rw [ih (load + loadDelta e) cap]
      constructor
      · intro h k hk1 hk2
        obtain ⟨m, rfl⟩ : ∃ m, k = m + 1 := ⟨k - 1, by omega⟩
        simp only [List.take_succ_cons, List.map_cons, List.sum_cons]
        rcases Nat.eq_zero_or_pos m with hm | hm
        · subst hm
          simp only [List.take_zero, List.map_nil, List.sum_nil, add_zero]
          linarith [not_lt.mp hcap]
        · have := h m hm (by simpa using hk2)
          linarith
      · intro h m hm1 hm2
        have := h (m + 1) (by omega) (by simpa using hm2)
        simp only [List.take_succ_cons, List.map_cons, List.sum_cons] at this
        linarith

/-! ### Claim C8 -/

/-- Claim C8: is_capacity_feasible returns true exactly when the initial
load (the capacity sum of the delivery stops in the route) is within the
vehicle capacity and the simulated load after every step of the walk
stays within it (loadAfter 0 is the initial load, so the two conditions
are stated as the spec states them).  The model is a pure function, so
the route is not mutated. -/
theorem C8_is_capacity_feasible_iff (route : List Event) (cap : ℝ) :
    is_capacity_feasible route cap = true ↔
      (routeDeliveryLoad route ≤ cap ∧
        ∀ k, k ≤ route.length → loadAfter route k ≤ cap) := by
  unfold is_capacity_feasible loadAfter
  by_cases h0 : cap < routeDeliveryLoad route
  · rw [if_pos h0]
    constructor
    · intro h; cases h
    · intro h
      exact absurd h.1 (not_le.mpr h0)
  · rw [if_neg h0, feasible_go_iff]
    constructor
    · intro h
      refine ⟨not_lt.mp h0, fun k hk => ?_⟩
      rcases Nat.eq_zero_or_pos k with hk0 | hk1
      · subst hk0
        simpa using not_lt.mp h0
      · exact h k hk1 hk
    · intro h k hk1 hk2
      exact h.2 k hk2

/-! ### Helper lemmas: route construction -/

theorem nnPick_getElem :
    ∀ (l : List Event) (current a : Event),
      (a :: l)[(nnPick current a l).2]? = some (nnPick current a l).1 := by
  intro l
  induction l with
  | nil => intro current a; simp [nnPick]
  | cons b rest ih =>
    intro current a
    simp only [nnPick]
    by_cases h : distance current (nnPick current b rest).1 < distance current a
    · simpa [h] using ih current b
    · simp [h]

theorem getElem_cons_eraseIdx_perm :
    ∀ (l : List Event) (i : ℕ) (a : Event),
      l[i]? = some a → l.Perm (a :: l.eraseIdx i) := by
  intro l
  induction l with
  | nil => intro i a h; simp at h
  | cons b t ih =>
    intro i a h
    cases i with
    | zero =>
      simp only [List.getElem?_cons_zero, Option.some_inj] at h
      subst h
      simp
    | succ m =>
      simp only [List.getElem?_cons_succ] at h
      have hperm := ih m a h
      have hsw : (b :: a :: t.eraseIdx m).Perm (a :: b :: t.eraseIdx m) :=
        List.Perm.swap a b _
      have : (b :: t).Perm (a :: b :: t.eraseIdx m) := (hperm.cons b).trans hsw
      simpa [List.eraseIdx_cons_succ] using this

theorem nn_go_perm :
    ∀ (fuel : ℕ) (l : List Event) (current : Event),
      l.length ≤ fuel → (nn_go fuel current l).Perm l := by
  intro fuel
  induction fuel with
  | zero =>
    intro l current h
    have : l = [] := List.length_eq_zero.mp (by omega)
    subst this
    simp [nn_go]
  | succ f ih =>
    intro l current h
    cases l with
    | nil => simp [nn_go]
    | cons u us =>
      simp only [nn_go]
      have hget := nnPick_getElem us current u
      have hidx : (nnPick current u us).2 < (u :: us).length :=
        List.getElem?_eq_some.mp hget |>.1
      have hperm := getElem_cons_eraseIdx_perm (u :: us) _ _ hget
      have hlen : ((u :: us).eraseIdx (nnPick current u us).2).length = us.length := by
        rw [List.length_eraseIdx_of_lt hidx]
        simp
      refine List.Perm.trans ?_ hperm.symm
      refine List.Perm.cons _ (ih _ _ ?_)
      rw [hlen]
      have hh : us.length + 1 ≤ f + 1 := by simpa using h
      omega

theorem nearest_neighbor_route_perm (ds : List Event) :
    ∃ t, nearest_neighbor_route ds = DEPOT :: t ∧ t.Perm ds :=
  ⟨nn_go ds.length DEPOT ds, rfl, nn_go_perm ds.length ds DEPOT le_rfl⟩

theorem insertScanStep_isSome (f : ℕ → ℝ) (acc : Option (ℕ × ℝ)) (i : ℕ) :
    ∃ jv, insertScanStep f acc i = some jv := by
  cases acc with
  | none => exact ⟨(i, f i), rfl⟩
  | some bi =>
    by_cases h : f i < bi.2
    · exact ⟨(i, f i), by simp [insertScanStep, if_pos h]⟩
    · exact ⟨bi, by simp [insertScanStep, if_neg h]⟩

theorem insertScan_result (f : ℕ → ℝ) :
    ∀ (l : List ℕ) (acc : Option (ℕ × ℝ)),
      (l.foldl (insertScanStep f) acc = none → acc = none ∧ l = []) ∧
      (∀ iv, l.foldl (insertScanStep f) acc = some iv → iv.1 ∈ l ∨ acc = some iv) := by
  intro l
  induction l with
  | nil => intro acc; exact ⟨fun h => ⟨h, rfl⟩, fun iv h => Or.inr h⟩
  | cons i l ih =>
    intro acc
    simp only [List.foldl_cons]
    constructor
    · intro h
      obtain ⟨jv, hjv⟩ := insertScanStep_isSome f acc i
      have := (ih (insertScanStep f acc i)).1 h
      rw [hjv] at this
      cases this.1
    · intro iv h
      rcases (ih (insertScanStep f acc i)).2 iv h with hmem | heq
      · exact Or.inl (List.mem_cons_of_mem _ hmem)
      · cases hacc : acc with
        | none =>
          rw [hacc] at heq
          simp only [insertScanStep, Option.some_inj] at heq
          exact Or.inl (by rw [← heq]; exact List.mem_cons_self _ _)
        | some bi =>
          rw [hacc] at heq
          simp only [insertScanStep] at heq
          by_cases hlt : f i < bi.2
          · rw [if_pos hlt] at heq
            simp only [Option.some_inj] at heq
            exact Or.inl (by rw [← heq]; exact List.mem_cons_self _ _)
          · rw [if_neg hlt] at heq
            exact Or.inr heq

theorem bestInsertPos_spec (route : List Event) (pickup : Event)
    (h2 : 2 ≤ route.length) :
    ∃ i, bestInsertPos route pickup = some i ∧ 1 ≤ i ∧ i < route.length := by
  unfold bestInsertPos
  set f := insertIncrease route pickup
  cases hres : (List.range' 1 (route.length - 1)).foldl (insertScanStep f) none with
  | none =>
    have := (insertScan_result f _ none).1 hres
    have hlen := congrArg List.length this.2
    simp only [List.length_range', List.length_nil] at hlen
    omega
  | some iv =>
    rcases (insertScan_result f _ none).2 iv hres with hmem | habs
    · rw [List.mem_range'_1] at hmem
      exact ⟨iv.1, by simp, hmem.1, by omega⟩
    · cases habs

theorem bestInsertPos_none (route : List Event) (pickup : Event)
    (h1 : route.length ≤ 1) : bestInsertPos route pickup = none := by
  unfold bestInsertPos
  have : route.length - 1 = 0 := by omega
  rw [this]
  rfl

theorem build_route_nil (p : Event) : build_route [] p = none := by
  have h : bestInsertPos (nearest_neighbor_route []) p = none := by
    apply bestInsertPos_none
    simp [nearest_neighbor_route, nn_go]
  simp [build_route, insert_pickup_best_position, h]

theorem build_route_some (ds : List Event) (p : Event) (hne : ds ≠ []) :
    ∃ i t, nearest_neighbor_route ds = DEPOT :: t ∧ t.Perm ds ∧ 1 ≤ i ∧ i ≤ t.length ∧
      build_route ds p = some (two_opt ((DEPOT :: t).insertIdx i p ++ [DEPOT])) := by
  obtain ⟨t, hnr, htp⟩ := nearest_neighbor_route_perm ds
  have hlen : (nearest_neighbor_route ds).length = t.length + 1 := by
    rw [hnr]
    simp
  have htds : t.length = ds.length := htp.length_eq
  have h2 : 2 ≤ (nearest_neighbor_route ds).length := by
    rw [hlen]
    have : ds.length ≠ 0 := fun h => hne (List.length_eq_zero.mp h)
    omega
  obtain ⟨i, hbest, hi1, hi2⟩ := bestInsertPos_spec _ p h2
  rw [hlen] at hi2
  refine ⟨i, t, hnr, htp, hi1, by omega, ?_⟩
  rw [← hnr]
  simp only [build_route, insert_pickup_best_position, hbest]

/-! ### Claim C5 -/

/-- Claim C5: a route returned by build_route (Constructor plus Optimizer)
on pairwise-distinct delivery stops starts and ends with the depot,
contains each selected delivery and the chosen pickup exactly once, and
contains no other non-depot stops. -/
theorem C5_route_structure (ds : List Event) (p : Event) (r : List Event)
    (hnd : ds.Nodup) (hds : ∀ d ∈ ds, d.type = "delivery")
    (hp : p.type = "pickup") (hbr : build_route ds p = some r) :
    r.head? = some DEPOT ∧ r.getLast? = some DEPOT ∧
      (∀ d ∈ ds, r.count d = 1) ∧ r.count p = 1 ∧
      (∀ e ∈ r, e.type ≠ "depot" → e ∈ ds ∨ e = p) := by
  rcases eq_or_ne ds [] with rfl | hne
  · rw [build_route_nil] at hbr
    cases hbr
  obtain ⟨i, t, hnr, htp, hi1, hi2, hbuild⟩ := build_route_some ds p hne
  rw [hbuild, Option.some_inj] at hbr
  subst hbr
  obtain ⟨m, rfl⟩ : ∃ m, i = m + 1 := ⟨i - 1, by omega⟩
  have hbase_eq : (DEPOT :: t).insertIdx (m + 1) p ++ [DEPOT] =
      DEPOT :: (t.insertIdx m p ++ [DEPOT]) := by
    rw [List.insertIdx_succ_cons]
    rfl
  have hhead : ((DEPOT :: t).insertIdx (m + 1) p ++ [DEPOT]).head? = some DEPOT := by
    rw [hbase_eq]
    rfl
  have hlast : ((DEPOT :: t).insertIdx (m + 1) p ++ [DEPOT]).getLast? = some DEPOT :=
    List.getLast?_concat _
  have hmle : m ≤ t.length := by omega
  have hperm1 : (t.insertIdx m p).Perm (p :: t) := List.perm_insertIdx p t hmle
  have hperm : ((DEPOT :: t).insertIdx (m + 1) p ++ [DEPOT]).Perm
      (DEPOT :: p :: DEPOT :: ds) := by
    rw [hbase_eq]
    refine List.Perm.cons DEPOT ?_
    have s1 : (t.insertIdx m p ++ [DEPOT]).Perm (DEPOT :: t.insertIdx m p) :=
      List.perm_append_singleton _ _
    have s2 : (DEPOT :: t.insertIdx m p).Perm (DEPOT :: p :: t) :=
      hperm1.cons DEPOT
    have s3 : (DEPOT :: p :: t).Perm (p :: DEPOT :: t) := List.Perm.swap p DEPOT t
    have s4 : (p :: DEPOT :: t).Perm (p :: DEPOT :: ds) := (htp.cons DEPOT).cons p
    exact ((s1.trans s2).trans s3).trans s4
  have hrp := (two_opt_perm _).trans hperm
  have hrh := (two_opt_head ((DEPOT :: t).insertIdx (m + 1) p ++ [DEPOT])).trans hhead
  have hrl := (two_opt_getLast ((DEPOT :: t).insertIdx (m + 1) p ++ [DEPOT])).trans hlast
  have hdel_ne_depot : ∀ d ∈ ds, d ≠ DEPOT := by
    intro d hd h
    have := hds d hd
    rw [h] at this
    simp [DEPOT] at this
  have hdel_ne_p : ∀ d ∈ ds, d ≠ p := by
    intro d hd h
    have h1 := hds d hd
    rw [h, hp] at h1
    simp at h1
  have hp_ne_depot : p ≠ DEPOT := by
    intro h
    rw [h] at hp
    simp [DEPOT] at hp
  refine ⟨hrh, hrl, ?_, ?_, ?_⟩
  · intro d hd
    rw [hrp.count_eq]
    simp [List.count_cons, hdel_ne_depot d hd, hdel_ne_p d hd,
      List.count_eq_one_of_mem hnd hd]
  · rw [hrp.count_eq]
    have hnotmem : p ∉ ds := fun hmem => hdel_ne_p p hmem rfl
    simp [List.count_cons, hp_ne_depot, List.count_eq_zero.mpr hnotmem]
  · intro e he het
    have hmem := hrp.mem_iff.mp he
    simp only [List.mem_cons] at hmem
    rcases hmem with rfl | rfl | rfl | hmem
    · exact absurd rfl het
    · exact Or.inr rfl
    · exact absurd rfl het
    · exact Or.inl hmem

/-- Witness for C5_route_structure: a concrete one-delivery, one-pickup
construction, with the built route evaluated explicitly. -/
theorem C5_witness :
    ∃ r, build_route [(⟨1, 0, 0, "delivery", "D1"⟩ : Event)] ⟨2, 0, 0, "pickup", "P1"⟩ =
        some r ∧
      (r.head? = some DEPOT ∧ r.getLast? = some DEPOT ∧
        (∀ d ∈ [(⟨1, 0, 0, "delivery", "D1"⟩ : Event)], r.count d = 1) ∧
        r.count (⟨2, 0, 0, "pickup", "P1"⟩ : Event) = 1 ∧
        (∀ e ∈ r, e.type ≠ "depot" →
          e ∈ [(⟨1, 0, 0, "delivery", "D1"⟩ : Event)] ∨ e = ⟨2, 0, 0, "pickup", "P1"⟩)) := by
  have heval : build_route [(⟨1, 0, 0, "delivery", "D1"⟩ : Event)] ⟨2, 0, 0, "pickup", "P1"⟩ =
      some [DEPOT, ⟨2, 0, 0, "pickup", "P1"⟩, ⟨1, 0, 0, "delivery", "D1"⟩, DEPOT] := by
    norm_num [build_route, insert_pickup_best_position, bestInsertPos, insertScanStep,
      nearest_neighbor_route, nn_go, nnPick, two_opt, two_opt_go, two_opt_pass,
      twoOptPairs, passStep, List.range', DEPOT]
  refine ⟨_, heval, C5_route_structure _ _ _ (by simp) ?_ rfl heval⟩
  intro d hd
  simp only [List.mem_singleton] at hd
  subst hd
  rfl

/-! ### Helper lemmas: the solver -/

theorem scoreGT_trans {a b c : ℕ × ℝ} (h1 : scoreGT a b) (h2 : scoreGT b c) :
    scoreGT a c := by
  unfold scoreGT at *
  rcases h1 with h1 | ⟨h1e, h1r⟩ <;> rcases h2 with h2 | ⟨h2e, h2r⟩
  · exact Or.inl (lt_trans h2 h1)
  · exact Or.inl (by omega)
  · exact Or.inl (by omega)
  · exact Or.inr ⟨by omega, by linarith⟩

theorem scoreGT_of_gt_of_not_gt {a b c : ℕ × ℝ} (h1 : scoreGT a b)
    (h2 : ¬ scoreGT c b) : scoreGT a c := by
  unfold scoreGT at *
  push_neg at h2
  obtain ⟨h2a, h2b⟩ := h2
  rcases h1 with h1 | ⟨h1e, h1r⟩
  · exact Or.inl (by omega)
  · rcases Nat.lt_or_ge c.1 b.1 with hc | hc
    · exact Or.inl (by omega)
    · have hcb : c.1 = b.1 := by omega
      have h3 := h2b (by omega)
      exact Or.inr ⟨by omega, by linarith⟩

theorem solve_go_skip (ds : List Event) {C : ℝ} (hC : C < 0) :
    ∀ (ps : List Event) (best : Option (Solution × (ℕ × ℝ))),
      solve_go ds C ps best = .ok (best.map (·.1)) := by
  intro ps
  induction ps with
  | nil => intro best; rfl
  | cons p rest ih =>
    intro best
    simp only [solve_go, if_pos hC]
    exact ih best

theorem candRoute_none (ds : List Event) (C : ℝ) (p : Event)
    (hsel : select_deliveries ds C = []) : candRoute ds C p = none := by
  rw [candRoute, hsel, build_route_nil]

theorem candRoute_some (ds : List Event) (C : ℝ) (p : Event)
    (hsel : select_deliveries ds C ≠ []) : ∃ r, candRoute ds C p = some r := by
  obtain ⟨i, t, _, _, _, _, hb⟩ := build_route_some _ p hsel
  exact ⟨_, hb⟩

theorem solveStep_invalid (ds : List Event) (C : ℝ) (p : Event)
    (hv : ¬ candValid ds C p) (best : Option (Solution × (ℕ × ℝ))) :
    solveStep ds C best p = best := by
  cases hb : build_route (select_deliveries ds C) p with
  | none => simp [solveStep, hb]
  | some r =>
    have hfeas : ¬ is_capacity_feasible r C = true := by
      intro hf
      exact hv ⟨r, by rw [candRoute]; exact hb, hf⟩
    simp [solveStep, hb, hfeas]

theorem candValid_route (ds : List Event) (C : ℝ) (p : Event)
    (hv : candValid ds C p) :
    ∃ r, candRoute ds C p = some r ∧ is_capacity_feasible r C = true ∧
      candSol ds C p = ⟨r, (select_deliveries ds C).length, route_length r, p⟩ ∧
      candScore ds C p = ((select_deliveries ds C).length, -route_length r) := by
  obtain ⟨r, hb, hf⟩ := hv
  exact ⟨r, hb, hf, by rw [candSol, hb]; rfl, by rw [candScore, hb]; rfl⟩

theorem solveStep_valid_none (ds : List Event) (C : ℝ) (p : Event)
    (hv : candValid ds C p) :
    solveStep ds C none p = some (candSol ds C p, candScore ds C p) := by
  obtain ⟨r, hb, hf, hsol, hsc⟩ := candValid_route ds C p hv
  rw [candRoute] at hb
  rw [hsol, hsc]
  simp [solveStep, hb, hf]

theorem solveStep_valid_some_better (ds : List Event) (C : ℝ) (p : Event)
    (b : Solution × (ℕ × ℝ)) (hv : candValid ds C p)
    (hgt : scoreGT (candScore ds C p) b.2) :
    solveStep ds C (some b) p = some (candSol ds C p, candScore ds C p) := by
  obtain ⟨r, hb, hf, hsol, hsc⟩ := candValid_route ds C p hv
  rw [candRoute] at hb
  rw [hsc] at hgt
  rw [hsol, hsc]
  simp [solveStep, hb, hf, hgt]

theorem solveStep_valid_some_notbetter (ds : List Event) (C : ℝ) (p : Event)
    (b : Solution × (ℕ × ℝ)) (hv : candValid ds C p)
    (hgt : ¬ scoreGT (candScore ds C p) b.2) :
    solveStep ds C (some b) p = some b := by
  obtain ⟨r, hb, hf, _, hsc⟩ := candValid_route ds C p hv
  rw [candRoute] at hb
  rw [hsc] at hgt
  simp [solveStep, hb, hf, hgt]

theorem solve_go_fold (ds : List Event) {C : ℝ} (hC : ¬ C < 0)
    (hsel : select_deliveries ds C ≠ []) :
    ∀ (ps : List Event) (best : Option (Solution × (ℕ × ℝ))),
      solve_go ds C ps best = .ok ((ps.foldl (solveStep ds C) best).map (·.1)) := by
  intro ps
  induction ps with
  | nil => intro best; rfl
  | cons p rest ih =>
    intro best
    obtain ⟨r, hb⟩ := candRoute_some ds C p hsel
    rw [candRoute] at hb
    simp only [List.foldl_cons]
    by_cases hf : is_capacity_feasible r C = true
    · by_cases hbetter : (match best with
        | none => True
        | some b => scoreGT ((select_deliveries ds C).length, -route_length r) b.2)
      · have hlhs : solve_go ds C (p :: rest) best =
            solve_go ds C rest (some
              (⟨r, (select_deliveries ds C).length, route_length r, p⟩,
                ((select_deliveries ds C).length, -route_length r))) := by
          simp only [solve_go, if_neg hC, hb, if_pos hf]
          rw [if_pos hbetter]
        have hstep : solveStep ds C best p = some
            (⟨r, (select_deliveries ds C).length, route_length r, p⟩,
              ((select_deliveries ds C).length, -route_length r)) := by
          simp only [solveStep, hb, if_pos hf]
          rw [if_pos hbetter]
        rw [hlhs, hstep, ih]
      · have hlhs : solve_go ds C (p :: rest) best = solve_go ds C rest best := by
          simp only [solve_go, if_neg hC, hb, if_pos hf]
          rw [if_neg hbetter]
        have hstep : solveStep ds C best p = best := by
          simp only [solveStep, hb, if_pos hf]
          rw [if_neg hbetter]
        rw [hlhs, hstep, ih]
    · have hlhs : solve_go ds C (p :: rest) best = solve_go ds C rest best := by
        simp only [solve_go, if_neg hC, hb, if_neg hf]
      have hstep : solveStep ds C best p = best := by
        simp only [solveStep, hb, if_neg hf]
      rw [hlhs, hstep, ih]

theorem foldl_solveStep_spec (ds : List Event) (C : ℝ) :
    ∀ (ps : List Event) (best : Option (Solution × (ℕ × ℝ))) (sol : Solution)
      (sc : ℕ × ℝ),
      ps.foldl (solveStep ds C) best = some (sol, sc) →
      (best = some (sol, sc) ∧
        ∀ q ∈ ps, candValid ds C q → ¬ scoreGT (candScore ds C q) sc) ∨
      (∃ pre p post, ps = pre ++ p :: post ∧ candValid ds C p ∧
        sol = candSol ds C p ∧ sc = candScore ds C p ∧
        (∀ b, best = some b → scoreGT sc b.2) ∧
        (∀ q ∈ pre, candValid ds C q → scoreGT sc (candScore ds C q)) ∧
        (∀ q ∈ post, candValid ds C q → ¬ scoreGT (candScore ds C q) sc)) := by
  intro ps
  induction ps with
  | nil =>
    intro best sol sc h
    exact Or.inl ⟨h, by simp⟩
  | cons p rest ih =>
    intro best sol sc h
    simp only [List.foldl_cons] at h
    by_cases hv : candValid ds C p
    · cases hbest : best with
      | none =>
        rw [hbest, solveStep_valid_none ds C p hv] at h
        rcases ih _ _ _ h with ⟨heq, hrest⟩ | ⟨pre, w, post, hsplit, hwv, hsol, hsc, hbeat, hpre, hpost⟩
        · right
          rw [Option.some_inj] at heq
          have hsol : sol = candSol ds C p := ((Prod.ext_iff.mp heq).1).symm
          have hsc : sc = candScore ds C p := ((Prod.ext_iff.mp heq).2).symm
          refine ⟨[], p, rest, by simp, hv, hsol, hsc, ?_, by simp, ?_⟩
          · intro b hb
            cases hb
          · intro q hq hqv
            exact hrest q hq hqv
        · right
          have hscp : scoreGT sc (candScore ds C p) :=
            hbeat (candSol ds C p, candScore ds C p) rfl
          refine ⟨p :: pre, w, post, by simp [hsplit], hwv, hsol, hsc, ?_, ?_, hpost⟩
          · intro b hb
            cases hb
          · intro q hq hqv
            rcases List.mem_cons.mp hq with rfl | hq2
            · exact hscp
            · exact hpre q hq2 hqv
      | some b =>
        by_cases hgt : scoreGT (candScore ds C p) b.2
        · rw [hbest, solveStep_valid_some_better ds C p b hv hgt] at h
          rcases ih _ _ _ h with ⟨heq, hrest⟩ | ⟨pre, w, post, hsplit, hwv, hsol, hsc, hbeat, hpre, hpost⟩
          · right
            rw [Option.some_inj] at heq
            have hsol : sol = candSol ds C p := ((Prod.ext_iff.mp heq).1).symm
            have hsc : sc = candScore ds C p := ((Prod.ext_iff.mp heq).2).symm
            refine ⟨[], p, rest, by simp, hv, hsol, hsc, ?_, by simp, ?_⟩
            · intro b2 hb2
              rw [Option.some_inj] at hb2
              rw [hsc, ← hb2]
              exact hgt
            · intro q hq hqv
              exact hrest q hq hqv
          · right
            have hscp : scoreGT sc (candScore ds C p) :=
              hbeat (candSol ds C p, candScore ds C p) rfl
            refine ⟨p :: pre, w, post, by simp [hsplit], hwv, hsol, hsc, ?_, ?_, hpost⟩
            · intro b2 hb2
              rw [Option.some_inj] at hb2
              rw [← hb2]
              exact scoreGT_trans hscp hgt
            · intro q hq hqv
              rcases List.mem_cons.mp hq with rfl | hq2
              · exact hscp
              · exact hpre q hq2 hqv
        · rw [hbest, solveStep_valid_some_notbetter ds C p b hv hgt] at h
          rcases ih _ _ _ h with ⟨heq, hrest⟩ | ⟨pre, w, post, hsplit, hwv, hsol, hsc, hbeat, hpre, hpost⟩
          · left
            rw [Option.some_inj] at heq
            refine ⟨by rw [heq], ?_⟩
            intro q hq hqv
            rcases List.mem_cons.mp hq with rfl | hq2
            · have hscb2 : sc = b.2 := by rw [heq]
              rw [hscb2]
              exact hgt
            · exact hrest q hq2 hqv
          · right
            have hscb : scoreGT sc b.2 := hbeat b rfl
            refine ⟨p :: pre, w, post, by simp [hsplit], hwv, hsol, hsc, ?_, ?_, hpost⟩
            · intro b2 hb2
              rw [Option.some_inj] at hb2
              rw [← hb2]
              exact hscb
            · intro q hq hqv
              rcases List.mem_cons.mp hq with rfl | hq2
              · exact scoreGT_of_gt_of_not_gt hscb hgt
              · exact hpre q hq2 hqv
    · rw [solveStep_invalid ds C p hv best] at h
      rcases ih _ _ _ h with ⟨heq, hrest⟩ | ⟨pre, w, post, hsplit, hwv, hsol, hsc, hbeat, hpre, hpost⟩
      · left
        refine ⟨heq, ?_⟩
        intro q hq hqv
        rcases List.mem_cons.mp hq with rfl | hq2
        · exact absurd hqv hv
        · exact hrest q hq2 hqv
      · right
        refine ⟨p :: pre, w, post, by simp [hsplit], hwv, hsol, hsc, hbeat, ?_, hpost⟩
        intro q hq hqv
        rcases List.mem_cons.mp hq with rfl | hq2
        · exact absurd hqv hv
        · exact hpre q hq2 hqv

/-! ### Claim C6 -/

/-- Claim C6: whenever solve returns a non-empty Solution, it is the
solution of some pickup candidate that passes validation, scores
(num_deliveries, -route_length) strictly above every earlier valid
candidate (so an earlier candidate wins exact ties) and at least as high
as every later valid candidate - i.e. the lexicographically greatest
score with first-seen tie-breaking. -/
theorem C6_solve_returns_best (ds ps : List Event) (C : ℝ) (sol : Solution)
    (h : solve ds ps C = .ok (some sol)) :
    ∃ pre p post, ps = pre ++ p :: post ∧ candValid ds C p ∧
      sol = candSol ds C p ∧
      (∀ q ∈ pre, candValid ds C q →
        scoreGT (candScore ds C p) (candScore ds C q)) ∧
      (∀ q ∈ post, candValid ds C q →
        ¬ scoreGT (candScore ds C q) (candScore ds C p)) := by
  by_cases hC : C < 0
  · rw [solve, solve_go_skip ds hC] at h
    simp at h
  by_cases hsel : select_deliveries ds C = []
  · cases ps with
    | nil =>
      rw [solve] at h
      simp [solve_go] at h
    | cons p rest =>
      have hbuild : build_route (select_deliveries ds C) p = none := by
        rw [hsel, build_route_nil]
      rw [solve] at h
      simp only [solve_go, if_neg hC, hbuild] at h
      cases h
  rw [solve, solve_go_fold ds hC hsel] at h
  simp only [Except.ok.injEq] at h
  obtain ⟨pair, hfold, hpair⟩ := Option.map_eq_some'.mp h
  obtain ⟨s2, sc⟩ := pair
  simp only at hpair
  subst hpair
  rcases foldl_solveStep_spec ds C ps none s2 sc hfold with ⟨heq, _⟩ |
    ⟨pre, p, post, hsplit, hval, hsol, hsc, _, hpre, hpost⟩
  · cases heq
  · subst hsc
    exact ⟨pre, p, post, hsplit, hval, hsol, fun q hq hqv => hpre q hq hqv,
      fun q hq hqv => hpost q hq hqv⟩

theorem build_route_single (dx dy px py cd cp : ℝ) (dn pn : String) :
    build_route [(⟨dx, dy, cd, "delivery", dn⟩ : Event)] ⟨px, py, cp, "pickup", pn⟩ =
      some [DEPOT, ⟨px, py, cp, "pickup", pn⟩, ⟨dx, dy, cd, "delivery", dn⟩, DEPOT] := by
  have hnear : nearest_neighbor_route [(⟨dx, dy, cd, "delivery", dn⟩ : Event)] =
      [DEPOT, ⟨dx, dy, cd, "delivery", dn⟩] := by
    norm_num [nearest_neighbor_route, nn_go, nnPick]
  have hbest : bestInsertPos [DEPOT, (⟨dx, dy, cd, "delivery", dn⟩ : Event)]
      ⟨px, py, cp, "pickup", pn⟩ = some 1 := by
    norm_num [bestInsertPos, insertScanStep, List.range']
  have hpass : two_opt_pass
      [DEPOT, ⟨px, py, cp, "pickup", pn⟩, (⟨dx, dy, cd, "delivery", dn⟩ : Event), DEPOT] =
      ([DEPOT, ⟨px, py, cp, "pickup", pn⟩, ⟨dx, dy, cd, "delivery", dn⟩, DEPOT], false) := by
    norm_num [two_opt_pass, twoOptPairs, passStep, List.range']
  have htwo : two_opt
      [DEPOT, ⟨px, py, cp, "pickup", pn⟩, (⟨dx, dy, cd, "delivery", dn⟩ : Event), DEPOT] =
      [DEPOT, ⟨px, py, cp, "pickup", pn⟩, ⟨dx, dy, cd, "delivery", dn⟩, DEPOT] :=
    two_opt_go_fix (by rw [hpass]) _
  rw [build_route, insert_pickup_best_position, hnear, hbest]
  simp only [List.insertIdx_succ_cons, List.insertIdx_zero, List.cons_append,
    List.nil_append]
  rw [htwo]

/-! ### Claims C1, C2 and C7 -/

/-- Claim C1: evaluating solve at the failing input.  With an empty
delivery list (so the selected delivery subset is empty) and one pickup,
the best-position scan of insert_pickup_best_position finds no position
and Python raises TypeError from route.insert(None, pickup); solve does
not return a value.  The claim (and the no-exception design of the spec)
says a value is always returned. -/
theorem C1_crash_on_empty_selection :
    solve [] [⟨1, 0, 0, "pickup", "P1"⟩] 0 = .error () := by
  have hsel : select_deliveries [] (0 : ℝ) = [] := rfl
  rw [solve]
  simp only [solve_go, if_neg (lt_irrefl (0 : ℝ)), hsel, build_route_nil]

/-- Claim C2, counterexample: one delivery and one pickup with capacity 1,
vehicle capacity 1 (capacities exactly equal to the vehicle capacity).
solve returns the empty result, not a non-empty Solution: the pickup is
inserted before the delivery, so the simulated load reaches 2 > 1. -/
theorem C2_counterexample :
    solve [⟨1, 0, 1, "delivery", "D1"⟩] [⟨2, 0, 1, "pickup", "P1"⟩] 1 = .ok none := by
  have hsel : select_deliveries [(⟨1, 0, 1, "delivery", "D1"⟩ : Event)] 1 =
      [(⟨1, 0, 1, "delivery", "D1"⟩ : Event)] := by
    norm_num [select_deliveries, greedy_go, List.insertionSort]
  have hbuild := build_route_single 1 0 2 0 1 1 "D1" "P1"
  have hfeas : is_capacity_feasible
      [DEPOT, ⟨2, 0, 1, "pickup", "P1"⟩, ⟨1, 0, 1, "delivery", "D1"⟩, DEPOT] 1 = false := by
    have hload : routeDeliveryLoad
        [DEPOT, ⟨2, 0, 1, "pickup", "P1"⟩, ⟨1, 0, 1, "delivery", "D1"⟩, DEPOT] = 1 := by
      simp [routeDeliveryLoad, DEPOT]
    have h1 : ¬ ((1 : ℝ) < 1 + loadDelta DEPOT) := by
      simp [loadDelta, DEPOT]
    have h2 : (1 : ℝ) < 1 + loadDelta DEPOT +
        loadDelta ⟨2, 0, 1, "pickup", "P1"⟩ := by
      have hd : loadDelta DEPOT = 0 := by simp [loadDelta, DEPOT]
      have hp : loadDelta (⟨2, 0, 1, "pickup", "P1"⟩ : Event) = 1 := by simp [loadDelta]
      rw [hd, hp]
      norm_num
    rw [is_capacity_feasible, hload, if_neg (lt_irrefl (1 : ℝ)),
      feasible_go_cons, if_neg h1, feasible_go_cons, if_pos h2]
  rw [solve]
  simp only [solve_go, hsel, hbuild, hfeas]
  norm_num

/-- Claim C2, amended: with a single delivery and a single pickup whose
capacities equal the vehicle capacity C, the constructed route is always
depot, pickup, delivery, depot (the insertion scan only considers the one
slot before the delivery), so for C positive the load reaches 2C > C at
the pickup and solve returns the empty result; only for C = 0 is the
configuration accepted with a non-empty Solution. -/
theorem C2_equal_capacity_boundary (dx dy px py C : ℝ) (dn pn : String) :
    (0 < C → solve [⟨dx, dy, C, "delivery", dn⟩] [⟨px, py, C, "pickup", pn⟩] C = .ok none) ∧
      (C = 0 → ∃ s, solve [⟨dx, dy, C, "delivery", dn⟩] [⟨px, py, C, "pickup", pn⟩] C =
        .ok (some s)) := by
  have hbuild := build_route_single dx dy px py C C dn pn
  constructor
  · intro hC
    have hC0 : ¬ C < 0 := by linarith
    have hsel : select_deliveries [(⟨dx, dy, C, "delivery", dn⟩ : Event)] C =
        [(⟨dx, dy, C, "delivery", dn⟩ : Event)] := by
      simp [select_deliveries, greedy_go, List.insertionSort]
    have hload : routeDeliveryLoad
        [DEPOT, ⟨px, py, C, "pickup", pn⟩, ⟨dx, dy, C, "delivery", dn⟩, DEPOT] = C := by
      simp [routeDeliveryLoad, DEPOT]
    have hfeas : is_capacity_feasible
        [DEPOT, ⟨px, py, C, "pickup", pn⟩, ⟨dx, dy, C, "delivery", dn⟩, DEPOT] C = false := by
      have h1 : ¬ (C < C + loadDelta DEPOT) := by
        simp [loadDelta, DEPOT]
      have h2 : C < C + loadDelta DEPOT + loadDelta ⟨px, py, C, "pickup", pn⟩ := by
        have hd : loadDelta DEPOT = 0 := by simp [loadDelta, DEPOT]
        have hp : loadDelta (⟨px, py, C, "pickup", pn⟩ : Event) = C := by simp [loadDelta]
        rw [hd, hp]
        linarith
      rw [is_capacity_feasible, hload, if_neg (lt_irrefl C),
        feasible_go_cons, if_neg h1, feasible_go_cons, if_pos h2]
    rw [solve]
    simp only [solve_go, if_neg hC0, hsel, hbuild, hfeas]
    norm_num
  · intro hC
    subst hC
    have hsel : select_deliveries [(⟨dx, dy, 0, "delivery", dn⟩ : Event)] 0 =
        [(⟨dx, dy, 0, "delivery", dn⟩ : Event)] := by
      simp [select_deliveries, greedy_go, List.insertionSort]
    have hload : routeDeliveryLoad
        [DEPOT, ⟨px, py, 0, "pickup", pn⟩, ⟨dx, dy, 0, "delivery", dn⟩, DEPOT] = 0 := by
      simp [routeDeliveryLoad, DEPOT]
    have hfeas : is_capacity_feasible
        [DEPOT, ⟨px, py, 0, "pickup", pn⟩, ⟨dx, dy, 0, "delivery", dn⟩, DEPOT] 0 = true := by
      have h1 : ¬ ((0 : ℝ) < 0 + loadDelta DEPOT) := by
        simp [loadDelta, DEPOT]
      have h2 : ¬ ((0 : ℝ) < 0 + loadDelta DEPOT +
          loadDelta ⟨px, py, 0, "pickup", pn⟩) := by
        simp [loadDelta, DEPOT]
      have h3 : ¬ ((0 : ℝ) < 0 + loadDelta DEPOT + loadDelta ⟨px, py, 0, "pickup", pn⟩ +
          loadDelta ⟨dx, dy, 0, "delivery", dn⟩) := by
        simp [loadDelta, DEPOT]
      have h4 : ¬ ((0 : ℝ) < 0 + loadDelta DEPOT + loadDelta ⟨px, py, 0, "pickup", pn⟩ +
          loadDelta ⟨dx, dy, 0, "delivery", dn⟩ + loadDelta DEPOT) := by
        simp [loadDelta, DEPOT]
      rw [is_capacity_feasible, hload, if_neg (lt_irrefl (0 : ℝ)),
        feasible_go_cons, if_neg h1, feasible_go_cons, if_neg h2,
        feasible_go_cons, if_neg h3, feasible_go_cons, if_neg h4]
      rfl
    refine ⟨⟨[DEPOT, ⟨px, py, 0, "pickup", pn⟩, ⟨dx, dy, 0, "delivery", dn⟩, DEPOT], 1,
      route_length [DEPOT, ⟨px, py, 0, "pickup", pn⟩, ⟨dx, dy, 0, "delivery", dn⟩, DEPOT],
      ⟨px, py, 0, "pickup", pn⟩⟩, ?_⟩
    rw [solve]
    simp only [solve_go, if_neg (lt_irrefl (0 : ℝ)), hsel, hbuild, if_pos hfeas]
    norm_num [hsel]

/-- Witness for C2_equal_capacity_boundary at the concrete positive
capacity 1. -/
theorem C2_witness :
    (0 : ℝ) < 1 ∧
      solve [⟨1, 0, 1, "delivery", "D1"⟩] [⟨2, 0, 1, "pickup", "P1"⟩] 1 = .ok none :=
  ⟨by norm_num, (C2_equal_capacity_boundary 1 0 2 0 1 "D1" "P1").1 (by norm_num)⟩

/-- Claim C7: evaluating solve at the failing input.  With one delivery
of capacity 5 and vehicle capacity 3, every pickup candidate has an empty
selected delivery subset, so no candidate yields a feasible route; the
claim says solve then returns the explicit empty value, but solve raises
(the TypeError of insert_pickup_best_position) instead. -/
theorem C7_crash_instead_of_empty :
    solve [⟨1, 0, 5, "delivery", "D1"⟩] [⟨2, 0, 1, "pickup", "P1"⟩] 3 = .error () ∧
      ∀ r, ¬ (build_route (select_deliveries [⟨1, 0, 5, "delivery", "D1"⟩] 3)
          ⟨2, 0, 1, "pickup", "P1"⟩ = some r ∧ is_capacity_feasible r 3 = true) := by
  have hsel : select_deliveries [(⟨1, 0, 5, "delivery", "D1"⟩ : Event)] 3 = [] := by
    norm_num [select_deliveries, greedy_go, List.insertionSort]
  constructor
  · rw [solve]
    simp only [solve_go, if_neg (by norm_num : ¬ (3 : ℝ) < 0), hsel, build_route_nil]
  · intro r hr
    rw [hsel, build_route_nil] at hr
    exact Option.noConfusion hr.1

theorem C6_witness_eval :
    solve [(⟨3, 0, 0, "delivery", "D1"⟩ : Event)] [(⟨4, 0, 0, "pickup", "P1"⟩ : Event)] 0 =
      .ok (some ⟨[DEPOT, ⟨4, 0, 0, "pickup", "P1"⟩, ⟨3, 0, 0, "delivery", "D1"⟩, DEPOT],
        1, 8, ⟨4, 0, 0, "pickup", "P1"⟩⟩) := by
  have hsel : select_deliveries [(⟨3, 0, 0, "delivery", "D1"⟩ : Event)] 0 =
      [(⟨3, 0, 0, "delivery", "D1"⟩ : Event)] := by
    norm_num [select_deliveries, greedy_go, List.insertionSort]
  have hbuild := build_route_single 3 0 4 0 0 0 "D1" "P1"
  have hfeas : is_capacity_feasible
      [DEPOT, ⟨4, 0, 0, "pickup", "P1"⟩, ⟨3, 0, 0, "delivery", "D1"⟩, DEPOT] 0 = true := by
    simp [is_capacity_feasible, routeDeliveryLoad, feasible_go, DEPOT]
  have hlen : route_length
      [DEPOT, ⟨4, 0, 0, "pickup", "P1"⟩, ⟨3, 0, 0, "delivery", "D1"⟩, DEPOT] = 8 := by
    norm_num [route_length, distance_line, DEPOT]
  rw [solve]
  simp only [solve_go, if_neg (lt_irrefl (0 : ℝ)), hsel, hbuild, if_pos hfeas, hlen]
  norm_num [hsel]

/-- Witness for C6_solve_returns_best at a concrete one-delivery,
one-pickup instance where solve returns a non-empty Solution. -/
theorem C6_witness :
    ∃ pre p post,
      [(⟨4, 0, 0, "pickup", "P1"⟩ : Event)] = pre ++ p :: post ∧
      candValid [(⟨3, 0, 0, "delivery", "D1"⟩ : Event)] 0 p ∧
      (⟨[DEPOT, ⟨4, 0, 0, "pickup", "P1"⟩, ⟨3, 0, 0, "delivery", "D1"⟩, DEPOT],
        1, 8, ⟨4, 0, 0, "pickup", "P1"⟩⟩ : Solution) =
        candSol [(⟨3, 0, 0, "delivery", "D1"⟩ : Event)] 0 p ∧
      (∀ q ∈ pre, candValid [(⟨3, 0, 0, "delivery", "D1"⟩ : Event)] 0 q →
        scoreGT (candScore [(⟨3, 0, 0, "delivery", "D1"⟩ : Event)] 0 p)
          (candScore [(⟨3, 0, 0, "delivery", "D1"⟩ : Event)] 0 q)) ∧
      (∀ q ∈ post, candValid [(⟨3, 0, 0, "delivery", "D1"⟩ : Event)] 0 q →
        ¬ scoreGT (candScore [(⟨3, 0, 0, "delivery", "D1"⟩ : Event)] 0 q)
          (candScore [(⟨3, 0, 0, "delivery", "D1"⟩ : Event)] 0 p)) :=
  C6_solve_returns_best [(⟨3, 0, 0, "delivery", "D1"⟩ : Event)]
    [(⟨4, 0, 0, "pickup", "P1"⟩ : Event)] 0
    ⟨[DEPOT, ⟨4, 0, 0, "pickup", "P1"⟩, ⟨3, 0, 0, "delivery", "D1"⟩, DEPOT],
      1, 8, ⟨4, 0, 0, "pickup", "P1"⟩⟩ C6_witness_eval

/-! ### Supporting lemmas: model adequacy -/

theorem nnPick_le :
    ∀ (l : List Event) (current a : Event), ∀ b ∈ a :: l,
      distance current (nnPick current a l).1 ≤ distance current b := by
  intro l
  induction l with
  | nil =>
    intro current a b hb
    simp only [List.mem_singleton] at hb
    subst hb
    simp [nnPick]
  | cons c rest ih =>
    intro current a b hb
    simp only [nnPick]
    by_cases h : distance current (nnPick current c rest).1 < distance current a
    · simp only [if_pos h]
      rcases List.mem_cons.mp hb with rfl | hb2
      · exact le_of_lt h
      · exact ih current c b hb2
    · simp only [if_neg h]
      rcases List.mem_cons.mp hb with rfl | hb2
      · exact le_rfl
      · exact le_trans (not_lt.mp h) (ih current c b hb2)

/-- Outside the empty-selection crash (claim C1), solve is total: with no
pickups, or a negative budget, or a non-empty selected delivery subset,
it returns a value. -/
theorem solve_total (ds ps : List Event) (C : ℝ)
    (h : ps = [] ∨ C < 0 ∨ select_deliveries ds C ≠ []) :
    ∃ v, solve ds ps C = .ok v := by
  rcases h with rfl | hC | hsel
  · exact ⟨none, rfl⟩
  · exact ⟨none, by rw [solve, solve_go_skip ds hC]; rfl⟩
  · by_cases hC : C < 0
    · exact ⟨none, by rw [solve, solve_go_skip ds hC]; rfl⟩
    · exact ⟨_, by rw [solve, solve_go_fold ds hC hsel]⟩

theorem firstImprovement_some {r r2 : List Event}
    (h : firstImprovement r = some r2) :
    r2.Perm r ∧ route_length r2 < route_length r := by
  unfold firstImprovement at h
  have key : ∀ (l : List (ℕ × ℕ)), (∀ ij ∈ l, ij.1 ≤ ij.2 ∧ ij.2 ≤ r.length) →
      ∀ acc : Option (List Event),
      (acc = none ∨ ∃ nr, acc = some nr ∧ nr.Perm r ∧ route_length nr < route_length r) →
      ∀ res, l.foldl (fun acc ij =>
        match acc with
        | some _ => acc
        | none =>
          if ij.2 - ij.1 = 1 then none
          else
            let nr := reverseSegment r ij.1 ij.2
            if route_length nr < route_length r then some nr else none) acc = some res →
      res.Perm r ∧ route_length res < route_length r := by
    intro l
    induction l with
    | nil =>
      intro _ acc hacc res hres
      rcases hacc with rfl | ⟨nr, rfl, hp, hl⟩
      · cases hres
      · simp only [List.foldl_nil, Option.some_inj] at hres
        subst hres
        exact ⟨hp, hl⟩
    | cons ij l ih =>
      intro hmem acc hacc res hres
      simp only [List.foldl_cons] at hres
      refine ih (fun q hq => hmem q (List.mem_cons_of_mem _ hq)) _ ?_ res hres
      rcases hacc with rfl | ⟨nr, rfl, hp, hl⟩
      · by_cases hadj : ij.2 - ij.1 = 1
        · simp only [if_pos hadj]
          exact Or.inl trivial
        · simp only [if_neg hadj]
          by_cases himp : route_length (reverseSegment r ij.1 ij.2) < route_length r
          · simp only [if_pos himp]
            have hb := hmem ij (List.mem_cons_self _ _)
            exact Or.inr ⟨_, rfl, reverseSegment_perm r ij.1 ij.2 hb.1 hb.2, himp⟩
          · simp only [if_neg himp]
            exact Or.inl trivial
      · exact Or.inr ⟨nr, rfl, hp, hl⟩
  refine key (twoOptPairs r.length) ?_ none (Or.inl rfl) r2 h
  intro ij hij
  have := twoOptPairs_mem hij
  exact ⟨le_of_lt this.2.1, by omega⟩

theorem two_opt_restart_go_reaches_fix :
    ∀ fuel (r : List Event), permCount r < fuel →
      firstImprovement (two_opt_restart_go fuel r) = none := by
  intro fuel
  induction fuel with
  | zero => intro r h; exact absurd h (by omega)
  | succ f ih =>
    intro r h
    cases hfi : firstImprovement r with
    | none =>
      rw [two_opt_restart_go_fix hfi]
      exact hfi
    | some r2 =>
      rw [two_opt_restart_go_step hfi]
      obtain ⟨hp, hl⟩ := firstImprovement_some hfi
      have := permCount_lt hp hl
      exact ih _ (by omega)

/-- Adequacy of the fuel bound of the spec-modelled restart 2-opt: the
returned route admits no improving reversal, so the model agrees with the
unbounded restart loop the spec describes. -/
theorem two_opt_restart_fix (r : List Event) :
    firstImprovement (two_opt_restart r) = none := by
  apply two_opt_restart_go_reaches_fix
  have := permCount_le r
  omega
